import Mathlib

/-!
Verification development for the livekit/storage object-storage abstraction.

The repository's backends are shallowly embedded:
  * the local-filesystem backend (local.go) over an explicit flat model of the
    file system (`Fs`): an association list from absolute paths to file
    contents, plus the list of existing directories.  A path is modelled as
    its list of cleaned components (Go's `path.Join`/`path.Split` clean the
    string form; `path.Join(dir, p)` becomes list append, `path.Split`
    becomes `dropLast`/`getLast?`);
  * the GCP download path (gcp.go) over an explicit model of the object
    reader's chunked delivery;
  * the AliOSS backends (aliyun.go / alioss.go) with an explicit outcome type
    distinguishing a returned value, a returned error and a Go panic;
  * the S3 constructor's region-resolution logic (s3.go);
  * the Azure presigned-URL capability check (modelled from the spec, see the
    doc comment there).
Bytes are natural numbers; byte strings are lists of naturals.
-/

namespace Storage

/-- A byte of file content. -/
abbrev Byte := Nat

/-- An absolute file-system path, as its list of cleaned components. -/
abbrev FPath := List String

/-- Outcome of a Go call: a returned value, a returned error, or a panic
(which crashes the calling goroutine rather than returning). -/
inductive GoCall (α : Type) where
  | ok (value : α)
  | error (msg : String)
  | panics (msg : String)
deriving Repr, DecidableEq

/-- The call returned a value. -/
def GoCall.isOk {α : Type} : GoCall α → Bool
  | .ok _ => true
  | _ => false

/-- The call returned an error value to the caller. -/
def GoCall.isError {α : Type} : GoCall α → Bool
  | .error _ => true
  | _ => false

/-- The call panicked instead of returning. -/
def GoCall.isPanic {α : Type} : GoCall α → Bool
  | .panics _ => true
  | _ => false

/-! ## The flat file-system model used by the local backend (local.go) -/

/-- Association-list lookup of a file's content by its path. -/
def findData : List (FPath × List Byte) → FPath → Option (List Byte)
  | [], _ => none
  | e :: es, p => if e.1 = p then some e.2 else findData es p

/-- Drop every entry keyed by `p` (the file entries whose path differs). -/
def eraseKey : List (FPath × List Byte) → FPath → List (FPath × List Byte)
  | [], _ => []
  | e :: es, p => if e.1 = p then eraseKey es p else e :: eraseKey es p

/-- Membership of a path in a list of paths, as a boolean. -/
def hasPath : List FPath → FPath → Bool
  | [], _ => false
  | q :: qs, p => decide (p = q) || hasPath qs p

/-- Drop every occurrence of a path from a list of paths. -/
def erasePath : List FPath → FPath → List FPath
  | [], _ => []
  | q :: qs, p => if q = p then erasePath qs p else q :: erasePath qs p

/-- The file system: regular files with their contents, and the set of
existing directories.  The root directory of the model is `[]`. -/
structure Fs where
  files : List (FPath × List Byte)
  dirs : List FPath
deriving Repr, DecidableEq

/-- The paths of all regular files. -/
def Fs.fileKeys (fs : Fs) : List FPath := fs.files.map Prod.fst

/-- `p` names an existing regular file. -/
def Fs.isFile (fs : Fs) (p : FPath) : Bool := (findData fs.files p).isSome

/-- `p` names an existing directory. -/
def Fs.isDir (fs : Fs) (p : FPath) : Bool := hasPath fs.dirs p

/-- os.ReadFile: the file's content, or an error (`none`) when absent. -/
def Fs.readFile (fs : Fs) (p : FPath) : Option (List Byte) := findData fs.files p

/-- The names of the entries of directory `p`: every file or directory whose
path is `p` plus one more component. -/
def Fs.childNames (fs : Fs) (p : FPath) : List String :=
  ((fs.fileKeys ++ fs.dirs).filterMap fun q =>
    if q.dropLast = p ∧ q ≠ [] then q.getLast? else none).dedup

/-- os.ReadDir: the entry names of a directory, or an error when `p` is not
an existing directory. -/
def Fs.readDir (fs : Fs) (p : FPath) : Option (List String) :=
  if fs.isDir p then some (fs.childNames p) else none

/-- os.Remove: deletes a regular file, or an empty directory; fails on a
missing path and on a non-empty directory. -/
def Fs.remove (fs : Fs) (p : FPath) : Option Fs :=
  if fs.isFile p then
    some ⟨eraseKey fs.files p, fs.dirs⟩
  else if fs.isDir p then
    if fs.childNames p = [] then
      some ⟨fs.files, erasePath fs.dirs p⟩
    else none
  else none

/-- os.Create followed by writing `data`: truncates/creates the file at `p`.
Fails when `p` is a directory or its parent directory does not exist. -/
def Fs.create (fs : Fs) (p : FPath) (data : List Byte) : Option Fs :=
  if fs.isDir p then none
  else if fs.isDir p.dropLast then
    some ⟨(p, data) :: eraseKey fs.files p, fs.dirs⟩
  else none

/-- os.MkdirAll: creates every missing directory along `p`; fails when some
prefix of `p` exists as a regular file. -/
def Fs.mkdirAll (fs : Fs) (p : FPath) : Option Fs :=
  if p.inits.any fs.isFile then none
  else some ⟨fs.files, (p.inits.filter fun q => !fs.isDir q) ++ fs.dirs⟩

/-- filepath.Walk rooted at directory `p`, collecting every regular file in
the subtree (the walk visits exactly the files whose path extends `p`). -/
def Fs.walkFiles (fs : Fs) (p : FPath) : List FPath :=
  fs.fileKeys.filter fun q => p.isPrefixOf q

/-- Files and directories are disjoint (no path names both), as the real
file system guarantees. -/
def Fs.Sep (fs : Fs) : Bool := fs.files.all fun e => !hasPath fs.dirs e.1

/-- strings.HasPrefix, on the characters of the strings. -/
def strHasPrefix (pfx s : String) : Bool := pfx.data.isPrefixOf s.data

/-! ## The local backend (local.go) -/

/-- `localUploader`: the configured absolute storage root. -/
structure LocalUploader where
  storageDir : FPath

/-- local.go `UploadData`: joins the root, creates intermediate directories
(`path.Split` of the joined absolute path always has a nonempty directory
part, so `os.MkdirAll` always runs), creates the file and writes the data;
returns the location (the joined absolute path) and the number of bytes
written (`len(data)`). -/
def uploadData (u : LocalUploader) (data : List Byte) (rel : FPath) (fs : Fs) :
    Option (FPath × Nat × Fs) := do
  let p := u.storageDir ++ rel
  let fs1 ← fs.mkdirAll p.dropLast
  let fs2 ← fs1.create p data
  some (p, data.length, fs2)

/-- local.go `DownloadData`: `os.ReadFile(path.Join(u.StorageDir, storagePath))`. -/
def downloadData (u : LocalUploader) (rel : FPath) (fs : Fs) : Option (List Byte) :=
  fs.readFile (u.storageDir ++ rel)

/-- io.Copy(dst, src) where `src` is a file handle positioned at the start of
content `src` and `dst` is a file handle that was opened read-only when
`dstWritable` is false: reads `src` to EOF writing into `dst`; when `src` is
empty no write is attempted and the copy returns 0 bytes with a nil error. -/
def ioCopy (dstWritable : Bool) (src : List Byte) : Option Nat :=
  if src = [] then some 0
  else if dstWritable then some src.length else none

/-- local.go `DownloadFile`, translated statement by statement:
`os.Open(localPath)` (a read-only handle on the local file), join the root
onto `storagePath`, `os.MkdirAll` on the directory part of the joined
storage path, `os.Create(storagePath)` — which truncates the stored object —
then `io.Copy(local, storage)`, i.e. copying FROM the just-truncated storage
file INTO the read-only local handle, and return the copied size. -/
def downloadFile (u : LocalUploader) (localPath rel : FPath) (fs : Fs) :
    Option (Nat × Fs) := do
  let _ ← if fs.isFile localPath then some () else none
  let p := u.storageDir ++ rel
  let fs1 ← fs.mkdirAll p.dropLast
  let fs2 ← fs1.create p []
  let n ← ioCopy false ((fs2.readFile p).getD [])
  some (n, fs2)

/-- local.go `ListObjects`: split the joined prefix into a directory and a
file-name prefix, read that directory — a ReadDir failure is swallowed, the
code returns `nil, nil` — then for each entry whose name starts with the
file-name prefix, either walk it recursively (directories) or collect it
(files).  (In this model a walk of an existing directory cannot fail.) -/
def listObjects (u : LocalUploader) (pre : FPath) (namePfx : String) (fs : Fs) :
    Option (List FPath) :=
  match fs.readDir (u.storageDir ++ pre) with
  | none => some []
  | some entries =>
      some (entries.flatMap fun name =>
        if strHasPrefix namePfx name then
          if fs.isDir (u.storageDir ++ pre ++ [name]) then
            fs.walkFiles (u.storageDir ++ pre ++ [name])
          else [u.storageDir ++ pre ++ [name]]
        else [])

/-- local.go `DeleteObject`'s loop: remove the joined path, step to the
parent (split and drop the trailing slash), read the parent directory, stop
successfully when the parent is the storage root or non-empty, else repeat on
the parent.  `rel` is the current path relative to the root; removing the
root itself (`rel = []`, reachable only through `DeleteObject("")`) walks
above the root and is outside this model, so that branch reports failure. -/
def deleteObjectLoopN (root : FPath) : Nat → Fs → FPath → Fs × Bool
  | 0, fs, _ => (fs, false)
  | n + 1, fs, rel =>
      match fs.remove (root ++ rel) with
      | none => (fs, false)
      | some fs1 =>
          match fs1.readDir (root ++ rel.dropLast) with
          | none => (fs1, false)
          | some entries =>
              if rel.dropLast = [] ∨ entries ≠ [] then (fs1, true)
              else deleteObjectLoopN root n fs1 rel.dropLast

/-- The loop entered on the relative path: each iteration steps to the
parent, so the path's length bounds (exactly) the iterations, making the
recursion structural. -/
def deleteObjectLoop (root : FPath) (fs : Fs) (rel : FPath) : Fs × Bool :=
  deleteObjectLoopN root rel.length fs rel

/-- local.go `DeleteObject`: final state and whether it returned nil. -/
def deleteObject (u : LocalUploader) (fs : Fs) (rel : FPath) : Fs × Bool :=
  deleteObjectLoop u.storageDir fs rel

/-- local.go `DeleteObjects`: delete each path in order, returning on the
first failure.  The second component is `none` for a nil error, and `some i`
when the call returned the error of the `i`-th path's `DeleteObject`. -/
def deleteObjects (u : LocalUploader) (fs : Fs) : List FPath → Fs × Option Nat
  | [] => (fs, none)
  | r :: rs =>
      match deleteObject u fs r with
      | (fs1, true) =>
          match deleteObjects u fs1 rs with
          | (fs2, none) => (fs2, none)
          | (fs2, some i) => (fs2, some (i + 1))
      | (fs1, false) => (fs1, some 0)

/-- The state after deleting a list of paths in order (ignoring errors):
used to speak about the prefix of successful deletions. -/
def applyDeletes (u : LocalUploader) (fs : Fs) : List FPath → Fs
  | [] => fs
  | r :: rs => applyDeletes u (deleteObject u fs r).1 rs

/-- Every delete along the list succeeds (in sequence). -/
def allDeletesOk (u : LocalUploader) (fs : Fs) : List FPath → Bool
  | [] => true
  | r :: rs => (deleteObject u fs r).2 && allDeletesOk u (deleteObject u fs r).1 rs

/-! ## The GCP download path (gcp.go) -/

/-- gcp.go `DownloadData`, given the object reader `rc`: `size` is
`rc.Attrs.Size` and `chunks` are the byte groups the successive `Read` calls
of the underlying reader deliver (the `io.Reader` contract allows the content
to arrive in any such chunking; their concatenation is the object's content).
The code allocates `b := make([]byte, rc.Attrs.Size)`, performs a SINGLE
`rc.Read(b)` — which fills the front of `b` from the first chunk, returning a
nil error on a short read — fails on a read error (EOF on an exhausted
nonempty read), and returns the whole buffer `b`. -/
def gcpDownloadData (size : Nat) (chunks : List (List Byte)) : Option (List Byte) :=
  let b := List.replicate size 0
  match chunks with
  | [] => if size = 0 then some b else none
  | c :: _ => some (c.take size ++ b.drop c.length)

/-! ## The AliOSS backends (aliyun.go and alioss.go) -/

/-- aliyun.go `DownloadData`: `panic("implement me")`. -/
def aliyunDownloadData (_storagePath : String) : GoCall (List Byte) :=
  .panics "implement me"

/-- aliyun.go `DownloadFile`: `panic("implement me")`. -/
def aliyunDownloadFile (_filePath _storagePath : String) : GoCall Nat :=
  .panics "implement me"

/-- aliyun.go `GeneratePresignedUrl`: `panic("implement me")`. -/
def aliyunGeneratePresignedUrl (_storagePath : String) : GoCall String :=
  .panics "implement me"

/-- aliyun.go `Delete`: `panic("implement me")`. -/
def aliyunDelete (_storagePath : String) : GoCall Unit :=
  .panics "implement me"

/-- An OSS bucket's objects, keyed by storage path. -/
structure OssBucket where
  objects : List (String × List Byte)

/-- Object lookup in an OSS bucket. -/
def OssBucket.get (b : OssBucket) : List (String × List Byte) → String → Option (List Byte)
  | [], _ => none
  | e :: es, p => if e.1 = p then some e.2 else OssBucket.get b es p

/-- alioss.go `DownloadData` (the newer generation): `bucket.GetObject`
followed by `io.ReadAll` — returns the stored bytes, or the SDK's error when
the object does not exist. -/
def aliossDownloadData (b : OssBucket) (storagePath : String) : GoCall (List Byte) :=
  match b.get b.objects storagePath with
  | some d => .ok d
  | none => .error "oss: object not found"

/-! ## The Azure presigned-URL capability check -/

/-- Azure configuration: account, key, container, and the optional
`TokenCredential` (azure.go declares it `required for presigned url
generation`). -/
structure AzureConfig where
  accountName : String
  accountKey : String
  containerName : String
  tokenCredential : Option String

/-- Modelled from the spec: the current-generation Azure
`GeneratePresignedUrl` is not among the repository files here — src/azure.go
holds only an older stub (`panic("implement me")`, the pre-expiration
interface) and the `AzureConfig.TokenCredential` declaration.  Per the spec,
presigned-URL generation "requires the token credential; otherwise fails":
with no token credential it returns a capability error; with one it obtains a
short-lived delegation credential scoped to the expiration window and
computes a signed query string over container+blob+permissions. -/
def azureGeneratePresignedUrl (conf : AzureConfig) (storagePath : String)
    (expirationSeconds : Nat) : GoCall String :=
  match conf.tokenCredential with
  | none => .error "azure: a token credential is required for presigned url generation"
  | some cred =>
      .ok ("https://" ++ conf.accountName ++ ".blob.core.windows.net/" ++
        conf.containerName ++ "/" ++ storagePath ++ "?sig=" ++ cred ++
        toString expirationSeconds)

/-! ## The S3 constructor's region resolution (s3.go) -/

/-- s3.go `defaultBucketLocation`. -/
def defaultBucketLocation : String := "us-east-1"

/-- The fields of `S3Config` that drive region/endpoint resolution (the
credential, retry, proxy, metadata and tagging fields do not affect it; the
assume-role branch rebuilds the same region/endpoint configuration with a
different credentials provider). -/
structure S3Config where
  region : String
  endpoint : String
  bucket : String

/-- The region/endpoint part of the derived `aws.Config`. -/
structure AwsConfig where
  region : String
  baseEndpoint : Option String
deriving Repr, DecidableEq

/-- s3.go `getConf`: the region is the configured one when nonempty, else
`defaultBucketLocation`; a nonempty configured endpoint becomes the base
endpoint. -/
def getConf (conf : S3Config) : AwsConfig :=
  ⟨if conf.region ≠ "" then conf.region else defaultBucketLocation,
   if conf.endpoint ≠ "" then some conf.endpoint else none⟩

/-- s3.go `updateRegion`: issues `GetBucketLocation` (its outcome is the
`lookup` argument: `none` a failed call, `some c` a response with
`LocationConstraint = c`); on success a nonempty constraint overwrites the
configuration's region. -/
def updateRegion (awsConf : AwsConfig) (lookup : Option String) : Option AwsConfig :=
  match lookup with
  | none => none
  | some constraint =>
      some (if constraint ≠ "" then { awsConf with region := constraint } else awsConf)

/-- The constructed s3Storage: the stored aws configuration (used by every
subsequent operation) and whether construction performed the bucket-location
lookup. -/
structure S3State where
  awsConf : AwsConfig
  regionLookupPerformed : Bool
deriving Repr, DecidableEq

/-- s3.go `NewS3` (region logic): build the aws config, and only when both
the configured region and endpoint are empty, discover the region via
`updateRegion`, failing when the lookup fails. -/
def newS3 (conf : S3Config) (lookup : Option String) : Option S3State :=
  let awsConf := getConf conf
  if conf.region = "" ∧ conf.endpoint = "" then
    match updateRegion awsConf lookup with
    | none => none
    | some a => some ⟨a, true⟩
  else some ⟨awsConf, false⟩

/-! ## Lemmas about the file-system model -/

theorem findData_eraseKey_self (l : List (FPath × List Byte)) (p : FPath) :
    findData (eraseKey l p) p = none := by
  induction l with
  | nil => rfl
  | cons e es ih =>
      by_cases h : e.1 = p
      · simp [eraseKey, h, ih]
      · simp [eraseKey, h, findData, ih]

theorem findData_eraseKey_ne (l : List (FPath × List Byte)) (p q : FPath)
    (hq : q ≠ p) :
    findData (eraseKey l p) q = findData l q := by
  have hpq : p ≠ q := fun hc => hq hc.symm
  induction l with
  | nil => rfl
  | cons e es ih =>
      by_cases h : e.1 = p
      · simp [eraseKey, h, findData, hpq, ih]
      · by_cases h2 : e.1 = q <;> simp [eraseKey, h, findData, h2, hq, ih]

theorem eraseKey_mem (l : List (FPath × List Byte)) (p : FPath)
    (e : FPath × List Byte) (h : e ∈ eraseKey l p) : e ∈ l := by
  induction l with
  | nil => simpa [eraseKey] using h
  | cons x xs ih =>
      by_cases hx : x.1 = p
      · simp only [eraseKey, hx, if_pos] at h
        exact List.mem_cons_of_mem _ (ih h)
      · simp only [eraseKey, hx, if_neg, if_false, List.mem_cons] at h
        rcases h with h | h
        · exact h ▸ List.mem_cons_self _ _
        · exact List.mem_cons_of_mem _ (ih h)

theorem eraseKey_cons_erase (p : FPath) (d : List Byte)
    (l : List (FPath × List Byte)) :
    eraseKey ((p, d) :: eraseKey l p) p = eraseKey l p := by
  have : eraseKey (eraseKey l p) p = eraseKey l p := by
    induction l with
    | nil => rfl
    | cons x xs ih =>
        by_cases hx : x.1 = p
        · simp [eraseKey, hx, ih]
        · simp [eraseKey, hx, ih]
  simp [eraseKey, this]

theorem findData_mem (l : List (FPath × List Byte)) (p : FPath) (d : List Byte)
    (h : findData l p = some d) : (p, d) ∈ l := by
  induction l with
  | nil => simp [findData] at h
  | cons e es ih =>
      by_cases he : e.1 = p
      · simp only [findData, he, if_pos] at h
        cases h
        have hrw : (p, e.2) = e := by
          cases e
          simp_all
        rw [hrw]
        exact List.mem_cons_self _ _
      · simp only [findData, he, if_neg, if_false] at h
        exact List.mem_cons_of_mem _ (ih h)

theorem hasPath_iff_mem (l : List FPath) (p : FPath) : hasPath l p = true ↔ p ∈ l := by
  induction l with
  | nil => simp [hasPath]
  | cons q qs ih => simp [hasPath, ih]

theorem hasPath_append (a b : List FPath) (p : FPath) :
    hasPath (a ++ b) p = (hasPath a p || hasPath b p) := by
  induction a with
  | nil => simp [hasPath]
  | cons q qs ih => simp [hasPath, ih, Bool.or_assoc]

theorem hasPath_erasePath_self (l : List FPath) (p : FPath) :
    hasPath (erasePath l p) p = false := by
  induction l with
  | nil => rfl
  | cons q qs ih =>
      by_cases h : q = p
      · simp [erasePath, h, ih]
      · simp [erasePath, h, hasPath, ih, Ne.symm h]

theorem hasPath_erasePath_ne (l : List FPath) (p q : FPath) (hq : q ≠ p) :
    hasPath (erasePath l p) q = hasPath l q := by
  induction l with
  | nil => rfl
  | cons x xs ih =>
      by_cases h : x = p
      · simp [erasePath, h, hasPath, hq, ih]
      · simp [erasePath, h, hasPath, ih]

theorem erasePath_mem (l : List FPath) (p q : FPath)
    (h : q ∈ erasePath l p) : q ∈ l := by
  induction l with
  | nil => simpa [erasePath] using h
  | cons x xs ih =>
      by_cases hx : x = p
      · simp only [erasePath, hx, if_pos] at h
        exact List.mem_cons_of_mem _ (ih h)
      · simp only [erasePath, hx, if_neg, if_false, List.mem_cons] at h
        rcases h with h | h
        · exact h ▸ List.mem_cons_self _ _
        · exact List.mem_cons_of_mem _ (ih h)

theorem hasPath_filter_imp (l : List FPath) (g : FPath → Bool) (p : FPath)
    (h : hasPath (l.filter g) p = true) : hasPath l p = true := by
  rw [hasPath_iff_mem] at h ⊢
  exact (List.mem_filter.mp h).1

/-- A separated file system stays separated when file entries are erased. -/
theorem sep_eraseKey (fs : Fs) (p : FPath)
    (h : fs.Sep = true) : Fs.Sep ⟨eraseKey fs.files p, fs.dirs⟩ = true := by
  simp only [Fs.Sep, List.all_eq_true] at h ⊢
  intro e he
  exact h e (eraseKey_mem _ _ _ he)

/-- A separated file system stays separated when a directory is erased. -/
theorem sep_erasePath (fs : Fs) (p : FPath)
    (h : fs.Sep = true) : Fs.Sep ⟨fs.files, erasePath fs.dirs p⟩ = true := by
  simp only [Fs.Sep, List.all_eq_true] at h ⊢
  intro e he
  have h1 := h e he
  cases h2 : hasPath (erasePath fs.dirs p) e.1
  · rfl
  · rw [hasPath_iff_mem] at h2
    have hd := (hasPath_iff_mem fs.dirs e.1).mpr (erasePath_mem _ _ _ h2)
    rw [hd] at h1
    simp at h1

/-- In a separated file system, a file is never a directory. -/
theorem sep_file_not_dir (fs : Fs) (p : FPath) (hsep : fs.Sep = true)
    (hf : fs.isFile p = true) : fs.isDir p = false := by
  simp only [Fs.isFile, Option.isSome_iff_exists] at hf
  obtain ⟨d, hd⟩ := hf
  have hm := findData_mem _ _ _ hd
  simp only [Fs.Sep, List.all_eq_true] at hsep
  have := hsep (p, d) hm
  simpa [Fs.isDir] using this

theorem hasPath_initsFilter_long (g : FPath → Bool) (pd p : FPath)
    (hlen : pd.length < p.length) :
    hasPath (pd.inits.filter g) p = false := by
  cases hh : hasPath (pd.inits.filter g) p
  · rfl
  · exfalso
    rw [hasPath_iff_mem] at hh
    have h1 := (List.mem_filter.mp hh).1
    rw [List.mem_inits] at h1
    have := h1.length_le
    omega

/-- After `MkdirAll(pd)`, `pd` is a directory. -/
theorem hasPath_initsFilter_self (fs : Fs) (pd : FPath) :
    hasPath ((pd.inits.filter fun q => !fs.isDir q) ++ fs.dirs) pd = true := by
  rw [hasPath_append]
  cases hd : fs.isDir pd
  · have hm : pd ∈ pd.inits.filter fun q => !fs.isDir q := by
      rw [List.mem_filter]
      refine ⟨by rw [List.mem_inits], by simp [hd]⟩
    rw [(hasPath_iff_mem _ _).mpr hm]
    rfl
  · rw [Fs.isDir] at hd
    rw [hd]
    simp

/-- The one-step shape of a successful local `UploadData`: when no prefix of
the target's directory chain is a regular file and the target itself is not
a directory, the upload returns the joined path and `len(data)`, replaces
any previous file entry at the target, and adds the missing directories of
the chain. -/
theorem uploadData_eq (u : LocalUploader) (d : List Byte) (rel : FPath) (fs : Fs)
    (hrel : rel ≠ [])
    (h1 : (u.storageDir ++ rel).dropLast.inits.any fs.isFile = false)
    (h2 : fs.isDir (u.storageDir ++ rel) = false) :
    uploadData u d rel fs =
      some (u.storageDir ++ rel, d.length,
        ⟨(u.storageDir ++ rel, d) :: eraseKey fs.files (u.storageDir ++ rel),
         ((u.storageDir ++ rel).dropLast.inits.filter fun q => !fs.isDir q)
           ++ fs.dirs⟩) := by
  have hp : u.storageDir ++ rel ≠ [] :=
    List.append_ne_nil_of_ne_nil_right _ hrel
  have hlen : (u.storageDir ++ rel).dropLast.length < (u.storageDir ++ rel).length := by
    rw [List.length_dropLast]
    have := List.length_pos.mpr hp
    omega
  have hdirp : Fs.isDir
      ⟨fs.files, ((u.storageDir ++ rel).dropLast.inits.filter fun q => !fs.isDir q)
        ++ fs.dirs⟩ (u.storageDir ++ rel) = false := by
    show hasPath _ _ = false
    rw [hasPath_append, hasPath_initsFilter_long _ _ _ hlen]
    exact h2
  have hdirpd : Fs.isDir
      ⟨fs.files, ((u.storageDir ++ rel).dropLast.inits.filter fun q => !fs.isDir q)
        ++ fs.dirs⟩ (u.storageDir ++ rel).dropLast = true :=
    hasPath_initsFilter_self fs _
  simp only [uploadData, Fs.mkdirAll, h1, Bool.false_eq_true, if_neg, if_false,
    Option.bind_eq_bind, Option.some_bind, Fs.create, hdirp, hdirpd, if_true]

/-- A file other than the freshly written one is unchanged by an upload. -/
theorem isFile_upload_state (fs : Fs) (p : FPath) (d : List Byte)
    (dirs : List FPath) (q : FPath) (hq : q ≠ p) :
    Fs.isFile ⟨(p, d) :: eraseKey fs.files p, dirs⟩ q = fs.isFile q := by
  show (findData _ q).isSome = (findData _ q).isSome
  have hpq : ¬ p = q := fun hc => hq hc.symm
  simp only [findData, hpq, if_neg, if_false]
  rw [findData_eraseKey_ne _ _ _ hq]

/-- No prefix of the directory chain is a file after an upload either. -/
theorem any_isFile_upload_state (u : LocalUploader) (rel : FPath) (fs : Fs)
    (d : List Byte) (dirs : List FPath) (hrel : rel ≠ [])
    (h1 : (u.storageDir ++ rel).dropLast.inits.any fs.isFile = false) :
    (u.storageDir ++ rel).dropLast.inits.any
      (Fs.isFile ⟨(u.storageDir ++ rel, d)
        :: eraseKey fs.files (u.storageDir ++ rel), dirs⟩) = false := by
  have hp : u.storageDir ++ rel ≠ [] :=
    List.append_ne_nil_of_ne_nil_right _ hrel
  rw [List.any_eq_false] at h1 ⊢
  intro q hq
  have hqlen : q.length < (u.storageDir ++ rel).length := by
    rw [List.mem_inits] at hq
    have ha := hq.length_le
    rw [List.length_dropLast] at ha
    have := List.length_pos.mpr hp
    omega
  have hqp : q ≠ u.storageDir ++ rel := fun hc => by rw [hc] at hqlen; omega
  rw [isFile_upload_state _ _ _ _ _ hqp]
  exact h1 q hq

/-- The directories added by re-running `MkdirAll` on a chain that a prior
upload already created are none: the filter is empty. -/
theorem initsFilter_after_mkdir_nil (fs : Fs) (pd : FPath)
    (fl : List (FPath × List Byte)) :
    pd.inits.filter
      (fun q => !Fs.isDir ⟨fl, (pd.inits.filter fun r => !fs.isDir r) ++ fs.dirs⟩ q)
      = [] := by
  rw [List.filter_eq_nil_iff]
  intro q hq
  have hdir : Fs.isDir ⟨fl, (pd.inits.filter fun r => !fs.isDir r) ++ fs.dirs⟩ q
      = true := by
    show hasPath _ q = true
    rw [hasPath_append]
    cases hd : fs.isDir q
    · have hm : q ∈ pd.inits.filter fun r => !fs.isDir r :=
        List.mem_filter.mpr ⟨hq, by simp [hd]⟩
      rw [(hasPath_iff_mem _ _).mpr hm]
      rfl
    · rw [Fs.isDir] at hd
      rw [hd]
      simp
  simp [hdir]

theorem isFile_mem_fileKeys (fs : Fs) (q : FPath) (h : fs.isFile q = true) :
    q ∈ fs.fileKeys := by
  simp only [Fs.isFile, Option.isSome_iff_exists] at h
  obtain ⟨d, hd⟩ := h
  exact List.mem_map_of_mem Prod.fst (findData_mem _ _ _ hd)

/-- A stored file `par/name` makes `name` an entry of directory `par`. -/
theorem childNames_of_file (fs : Fs) (par : FPath) (name : String)
    (h : fs.isFile (par ++ [name]) = true) : name ∈ fs.childNames par := by
  rw [Fs.childNames, List.mem_dedup, List.mem_filterMap]
  refine ⟨par ++ [name], List.mem_append_left _ (isFile_mem_fileKeys _ _ h), ?_⟩
  rw [if_pos ⟨List.dropLast_concat .., List.append_ne_nil_of_ne_nil_right _ (by simp)⟩]
  exact List.getLast?_concat ..

/-- A directory `par/name` makes `name` an entry of directory `par`. -/
theorem childNames_of_dir (fs : Fs) (par : FPath) (name : String)
    (h : fs.isDir (par ++ [name]) = true) : name ∈ fs.childNames par := by
  rw [Fs.childNames, List.mem_dedup, List.mem_filterMap]
  rw [Fs.isDir, hasPath_iff_mem] at h
  refine ⟨par ++ [name], List.mem_append_right _ h, ?_⟩
  rw [if_pos ⟨List.dropLast_concat .., List.append_ne_nil_of_ne_nil_right _ (by simp)⟩]
  exact List.getLast?_concat ..

/-- `ListObjects` on a readable prefix directory materializes the matching
entries. -/
theorem listObjects_eq (u : LocalUploader) (pre : FPath) (namePfx : String)
    (fs : Fs) (hdir : fs.isDir (u.storageDir ++ pre) = true) :
    listObjects u pre namePfx fs
      = some ((fs.childNames (u.storageDir ++ pre)).flatMap fun name =>
          if strHasPrefix namePfx name then
            if fs.isDir (u.storageDir ++ pre ++ [name]) then
              fs.walkFiles (u.storageDir ++ pre ++ [name])
            else [u.storageDir ++ pre ++ [name]]
          else []) := by
  rw [listObjects, Fs.readDir, if_pos hdir]

/-- In a separated file system, a directory is never a file. -/
theorem sep_dir_not_file (fs : Fs) (p : FPath) (hsep : fs.Sep = true)
    (hd : fs.isDir p = true) : fs.isFile p = false := by
  cases hf : fs.isFile p
  · rfl
  · rw [sep_file_not_dir fs p hsep hf] at hd
    exact absurd hd (by simp)

theorem readDir_some (fs : Fs) (p : FPath) (e : List String)
    (h : fs.readDir p = some e) :
    fs.isDir p = true ∧ e = fs.childNames p := by
  rw [Fs.readDir] at h
  by_cases hd : fs.isDir p = true
  · rw [if_pos hd] at h
    cases h
    exact ⟨hd, rfl⟩
  · rw [if_neg hd] at h
    cases h

theorem take_dropLast_eq (l : FPath) (j : Nat) (h : j ≤ l.length - 1) :
    l.dropLast.take j = l.take j := by
  rw [List.dropLast_eq_take, List.take_take]
  rw [Nat.min_eq_left h]

theorem take_ne_nil_of_ne_nil (l : FPath) (j : Nat) (hl : l ≠ []) (hj : j ≠ 0) :
    l.take j ≠ [] := by
  rw [Ne, List.take_eq_nil_iff]
  push_neg
  exact ⟨hj, hl⟩

/-- The directory phase of `DeleteObject`'s loop: entered on an empty
directory of the chain, it removes it and each now-empty ancestor, never
touching a file, and stops at the root (`k = 0`) or at the first ancestor
left non-empty (`k` is the depth of the deepest surviving ancestor; every
chain directory deeper than `k` is gone, everything off the chain is
untouched). -/
theorem deleteLoop_dir_phase (n : Nat) :
    ∀ (root : FPath) (fs : Fs) (rel : FPath) (fs' : Fs),
      rel.length = n → rel ≠ [] → fs.Sep = true →
      fs.isDir (root ++ rel) = true →
      deleteObjectLoopN root n fs rel = (fs', true) →
      fs'.files = fs.files
      ∧ fs'.Sep = true
      ∧ ∃ k, k < rel.length
          ∧ (∀ j, k < j → j ≤ rel.length → fs'.isDir (root ++ rel.take j) = false)
          ∧ (∀ q, (∀ j, k < j → j ≤ rel.length → q ≠ root ++ rel.take j)
              → fs'.isDir q = fs.isDir q)
          ∧ (k = 0 ∨ fs'.childNames (root ++ rel.take k) ≠ []) := by
  induction n with
  | zero =>
      intro root fs rel fs' hn hrel _ _ _
      exact absurd (List.length_eq_zero.mp hn) hrel
  | succ n ih =>
      intro root fs rel fs' hn hrel hsep hdir h
      have hfile : fs.isFile (root ++ rel) = false :=
        sep_dir_not_file fs _ hsep (by exact hdir)
      by_cases hemp : fs.childNames (root ++ rel) = []
      · -- the chain directory is empty: it is removed
        have hrm : fs.remove (root ++ rel)
            = some ⟨fs.files, erasePath fs.dirs (root ++ rel)⟩ := by
          rw [Fs.remove, hfile]
          simp only [Bool.false_eq_true, if_false, hdir, if_true, hemp, if_pos]
        rw [deleteObjectLoopN] at h
        simp only [hrm] at h
        have hsep1 : Fs.Sep ⟨fs.files, erasePath fs.dirs (root ++ rel)⟩ = true :=
          sep_erasePath fs _ hsep
        cases hrd : Fs.readDir ⟨fs.files, erasePath fs.dirs (root ++ rel)⟩
            (root ++ rel.dropLast) with
        | none =>
            simp only [hrd] at h
            exact absurd (congrArg Prod.snd h) (by simp)
        | some entries =>
            simp only [hrd] at h
            obtain ⟨hdir1, hent⟩ := readDir_some _ _ _ hrd
            by_cases hstop : rel.dropLast = [] ∨ entries ≠ []
            · rw [if_pos hstop] at h
              cases h
              refine ⟨rfl, hsep1, rel.length - 1, by omega, ?_, ?_, ?_⟩
              · intro j hj1 hj2
                have hj : j = rel.length := by omega
                rw [hj, List.take_length]
                show hasPath (erasePath fs.dirs (root ++ rel)) (root ++ rel) = false
                exact hasPath_erasePath_self _ _
              · intro q hq
                have hqr : q ≠ root ++ rel := by
                  have := hq rel.length (by omega) (by omega)
                  rwa [List.take_length] at this
                show hasPath (erasePath fs.dirs (root ++ rel)) q = fs.isDir q
                exact hasPath_erasePath_ne _ _ _ hqr
              · rcases hstop with hstop | hstop
                · left
                  have := congrArg List.length hstop
                  rw [List.length_dropLast] at this
                  simp at this
                  omega
                · right
                  have htk : rel.take (rel.length - 1) = rel.dropLast := by
                    rw [List.dropLast_eq_take]
                  rw [htk, ← hent]
                  exact hstop
            · rw [if_neg hstop] at h
              push_neg at hstop
              obtain ⟨hrel1, hent0⟩ := hstop
              have hlen1 : rel.dropLast.length = n := by
                rw [List.length_dropLast, hn]
                omega
              obtain ⟨hfiles', hsep', k, hk, hb, hc, hd⟩ :=
                ih root ⟨fs.files, erasePath fs.dirs (root ++ rel)⟩
                  rel.dropLast fs' hlen1 hrel1 hsep1 hdir1 h
              have hklt : k < rel.length := by
                rw [hlen1] at hk
                omega
              have hkle : k ≤ rel.length - 1 := by omega
              refine ⟨hfiles', hsep', k, hklt, ?_, ?_, ?_⟩
              · intro j hj1 hj2
                by_cases hjle : j ≤ rel.dropLast.length
                · rw [← take_dropLast_eq rel j (by rw [← List.length_dropLast]; omega)]
                  exact hb j hj1 hjle
                · have hj : j = rel.length := by
                    rw [hlen1] at hjle
                    omega
                  rw [hj, List.take_length]
                  have hne : ∀ j', k < j' → j' ≤ rel.dropLast.length
                      → root ++ rel ≠ root ++ rel.dropLast.take j' := by
                    intro j' _ hj'
                    intro hc2
                    have := List.append_cancel_left hc2
                    have hlt : (rel.dropLast.take j').length < rel.length := by
                      rw [List.length_take]
                      rw [hlen1] at hj' ⊢
                      rw [hn]
                      omega
                    rw [← this] at hlt
                    omega
                  rw [hc (root ++ rel) hne]
                  show hasPath (erasePath fs.dirs (root ++ rel)) (root ++ rel) = false
                  exact hasPath_erasePath_self _ _
              · intro q hq
                have hq' : ∀ j, k < j → j ≤ rel.dropLast.length
                    → q ≠ root ++ rel.dropLast.take j := by
                  intro j hj1 hj2
                  rw [take_dropLast_eq rel j (by rw [← List.length_dropLast]; omega)]
                  exact hq j hj1 (by rw [hlen1] at hj2; omega)
                rw [hc q hq']
                have hqr : q ≠ root ++ rel := by
                  have := hq rel.length (by omega) (by omega)
                  rwa [List.take_length] at this
                show hasPath (erasePath fs.dirs (root ++ rel)) q = fs.isDir q
                exact hasPath_erasePath_ne _ _ _ hqr
              · rcases hd with hd | hd
                · exact Or.inl hd
                · right
                  rwa [take_dropLast_eq rel k hkle] at hd
      · -- the chain directory is non-empty: remove fails, the loop reports
        -- the error (this cannot happen on a successful run)
        have hrm : fs.remove (root ++ rel) = none := by
          rw [Fs.remove, hfile]
          simp only [Bool.false_eq_true, if_false, hdir, if_true, hemp, if_neg]
        rw [deleteObjectLoopN] at h
        simp only [hrm] at h
        exact absurd (congrArg Prod.snd h) (by simp)

/-! ## Claim theorems -/

/-- C1: the claim that upload-then-download returns exactly the uploaded
bytes for EVERY backend fails on the GCP backend: `DownloadData` performs a
single `rc.Read` into a buffer of the object's size and returns the whole
buffer, so when the reader delivers a 2-byte object `[1, 2]` in two 1-byte
chunks (a chunking the `io.Reader` contract allows, and the normal case for
payloads larger than one network buffer), the call returns `[1, 0]` — the
second byte is never read and the tail stays zero. -/
theorem c1_gcp_download_short_read :
    ([[1], [2]] : List (List Byte)).flatten = [1, 2]
    ∧ gcpDownloadData 2 [[1], [2]] = some [1, 0]
    ∧ gcpDownloadData 2 [[1], [2]] ≠ some [1, 2] := by
  refine ⟨rfl, rfl, by decide⟩

/-- C2 counterexample: on the aliyun.go generation of the AliOSS adapter the
unimplemented operations do NOT return a capability error — they panic with
"implement me", crashing the caller's process. -/
theorem c2_aliyun_ops_panic_cex :
    aliyunDownloadData "file.txt" = .panics "implement me"
    ∧ (aliyunDownloadData "file.txt").isError = false
    ∧ (aliyunDownloadData "file.txt").isOk = false
    ∧ aliyunGeneratePresignedUrl "file.txt" = .panics "implement me"
    ∧ aliyunDelete "file.txt" = .panics "implement me"
    ∧ aliyunDownloadFile "out.txt" "file.txt" = .panics "implement me" :=
  ⟨rfl, rfl, rfl, rfl, rfl, rfl⟩

/-- C2 (amended): for every storage path, the aliyun.go generation's
`DownloadData`, `DownloadFile`, `GeneratePresignedUrl` and `Delete` panic
with "implement me" — they fail loudly and never return a silent empty
success, but by a panic rather than a returned capability error — while the
newer alioss.go generation implements these operations against the OSS SDK
(its `DownloadData` returns a value or an error, never a panic). -/
theorem c2_amended_aliyun_panics (p f : String) (b : OssBucket) :
    aliyunDownloadData p = .panics "implement me"
    ∧ aliyunDownloadFile f p = .panics "implement me"
    ∧ aliyunGeneratePresignedUrl p = .panics "implement me"
    ∧ aliyunDelete p = .panics "implement me"
    ∧ (aliyunDownloadData p).isOk = false
    ∧ (aliossDownloadData b p).isPanic = false := by
  refine ⟨rfl, rfl, rfl, rfl, rfl, ?_⟩
  unfold aliossDownloadData
  cases b.get b.objects p <;> rfl

/-- The local uploader of the C5 scenario (storage root `/r`). -/
def uC5 : LocalUploader := ⟨["r"]⟩

/-- C5 scenario: a stored object `/r/obj` with content `[7, 8, 9]` and an
existing local file `/local` with content `[4, 5]`. -/
def fsC5 : Fs := ⟨[(["r", "obj"], [7, 8, 9]), (["local"], [4, 5])], [[], ["r"]]⟩

/-- The file system `DownloadFile` leaves behind in the C5 scenario: the
stored object truncated to empty, the local file untouched. -/
def fsC5after : Fs := ⟨[(["r", "obj"], []), (["local"], [4, 5])], [[], ["r"]]⟩

/-- C5: the local backend's `DownloadFile` does not stream the stored object
to the local path — evaluated on a stored object `/r/obj` = `[7, 8, 9]` and
local file `/local` = `[4, 5]`, it returns 0 bytes with a nil error, writes
nothing to the local file, and truncates the stored object to empty (the
`os.Create`/`io.Copy` arguments are reversed relative to `UploadFile`). -/
theorem c5_download_file_truncates_object :
    downloadFile uC5 ["local"] ["obj"] fsC5 = some (0, fsC5after)
    ∧ fsC5.readFile ["r", "obj"] = some [7, 8, 9]
    ∧ fsC5after.readFile ["r", "obj"] = some []
    ∧ fsC5after.readFile ["local"] = some [4, 5] := by
  exact ⟨by decide, rfl, rfl, rfl⟩

/-- C6: Azure presigned-URL generation succeeds exactly when a token
credential was supplied in the configuration, and with no token credential
it returns a capability error to the caller, for every storage path and
expiration. -/
theorem c6_azure_presign_requires_token (conf : AzureConfig) (p : String)
    (expirationSeconds : Nat) :
    (azureGeneratePresignedUrl conf p expirationSeconds).isOk
        = conf.tokenCredential.isSome
    ∧ (azureGeneratePresignedUrl conf p expirationSeconds).isError
        = !conf.tokenCredential.isSome := by
  cases h : conf.tokenCredential <;>
    simp [azureGeneratePresignedUrl, h, GoCall.isOk, GoCall.isError]

/-- C8: `NewS3` performs the bucket-location lookup if and only if both the
configured region and the configured endpoint are empty; after a successful
lookup returning a nonempty location constraint, the stored aws
configuration carries that discovered region; and a configured region is
kept verbatim. -/
theorem c8_s3_region_discovery (conf : S3Config) (lookup : Option String)
    (s : S3State) (h : newS3 conf lookup = some s) :
    s.regionLookupPerformed
        = (decide (conf.region = "") && decide (conf.endpoint = ""))
    ∧ (∀ c, conf.region = "" → conf.endpoint = "" → lookup = some c → c ≠ "" →
        s.awsConf.region = c)
    ∧ (conf.region ≠ "" → s.awsConf.region = conf.region) := by
  unfold newS3 at h
  split at h
  case isTrue hcond =>
    cases hl : lookup with
    | none => rw [hl] at h; simp [updateRegion] at h
    | some c =>
        rw [hl] at h
        simp only [updateRegion, Option.some.injEq] at h
        subst h
        refine ⟨by simp [hcond.1, hcond.2], ?_, ?_⟩
        · intro c' _ _ hc hne
          cases hc
          simp [hne]
        · intro hne; exact absurd hcond.1 hne
  case isFalse hcond =>
    simp only [Option.some.injEq] at h
    subst h
    refine ⟨?_, ?_, ?_⟩
    · simp only [S3State.regionLookupPerformed]
      rcases not_and_or.mp hcond with hr | he
      · simp [hr]
      · simp [he]
    · intro c hr he _ _; exact absurd ⟨hr, he⟩ hcond
    · intro hne
      simp [S3State.awsConf, getConf, hne]

/-- C8 witness: with empty region and endpoint and a lookup answering
`eu-west-2`, construction performs the lookup and stores that region. -/
theorem c8_s3_region_discovery_witness :
    ((S3State.mk ⟨"eu-west-2", none⟩ true).regionLookupPerformed
        = (decide ((S3Config.mk "" "" "b").region = "")
            && decide ((S3Config.mk "" "" "b").endpoint = "")))
    ∧ (∀ c, (S3Config.mk "" "" "b").region = ""
          → (S3Config.mk "" "" "b").endpoint = ""
          → (some "eu-west-2" : Option String) = some c → c ≠ ""
          → (S3State.mk ⟨"eu-west-2", none⟩ true).awsConf.region = c)
    ∧ ((S3Config.mk "" "" "b").region ≠ ""
        → (S3State.mk ⟨"eu-west-2", none⟩ true).awsConf.region
            = (S3Config.mk "" "" "b").region) :=
  c8_s3_region_discovery (S3Config.mk "" "" "b") (some "eu-west-2")
    (S3State.mk ⟨"eu-west-2", none⟩ true) (by decide)

/-- The local uploader of the C9 scenario (storage root `/root`). -/
def uC9 : LocalUploader := ⟨["root"]⟩

/-- C9 scenario: one stored object; the prefix directory `/root/nope` does
not exist, so `os.ReadDir` on it fails. -/
def fsC9 : Fs := ⟨[(["root", "a.txt"], [1])], [[], ["root"]]⟩

/-- C9 counterexample: with a prefix whose derived directory cannot be read
(`ReadDir` fails), `ListObjects` does NOT return the error — it returns an
empty result with a nil error (`return nil, nil`). -/
theorem c9_list_objects_swallows_error_cex :
    fsC9.readDir (uC9.storageDir ++ ["nope"]) = none
    ∧ listObjects uC9 ["nope"] "f" fsC9 = some [] := by
  exact ⟨by decide, by decide⟩

/-- C9 (amended): when the local backend's `ListObjects` cannot read the
directory derived from the prefix, it swallows the error and returns an
empty result with a nil error (rather than propagating the error). -/
theorem c9_amended_list_readdir_error_swallowed (u : LocalUploader)
    (pre : FPath) (namePfx : String) (fs : Fs)
    (h : fs.readDir (u.storageDir ++ pre) = none) :
    listObjects u pre namePfx fs = some [] := by
  unfold listObjects
  rw [h]

/-- C9 amended witness: the amended statement evaluated on the C9 scenario. -/
theorem c9_amended_witness :
    listObjects uC9 ["nope"] "g" fsC9 = some [] :=
  c9_amended_list_readdir_error_swallowed uC9 ["nope"] "g" fsC9 (by decide)

/-- C10: uploading twice to the same path is last-write-wins for the local
backend: after `UploadData(d1, p)` then `UploadData(d2, p)`,
`DownloadData(p)` returns exactly `d2` (for arbitrary `d1`, `d2` — in
particular a `d2` shorter than `d1`, since `os.Create` truncates), and
re-running `UploadData(d2, p)` leaves the file system unchanged
(idempotence).  The hypotheses say the target path is creatable: no prefix
of its directory chain is a regular file and the target is not a directory. -/
theorem c10_upload_last_write_wins (u : LocalUploader) (rel : FPath) (fs : Fs)
    (d1 d2 : List Byte)
    (hrel : rel ≠ [])
    (h1 : (u.storageDir ++ rel).dropLast.inits.any fs.isFile = false)
    (h2 : fs.isDir (u.storageDir ++ rel) = false) :
    ∃ fs2 fs3,
      uploadData u d1 rel fs = some (u.storageDir ++ rel, d1.length, fs2)
      ∧ uploadData u d2 rel fs2 = some (u.storageDir ++ rel, d2.length, fs3)
      ∧ downloadData u rel fs3 = some d2
      ∧ uploadData u d2 rel fs3 = some (u.storageDir ++ rel, d2.length, fs3) := by
  have hp : u.storageDir ++ rel ≠ [] :=
    List.append_ne_nil_of_ne_nil_right _ hrel
  have hlen : (u.storageDir ++ rel).dropLast.length
      < (u.storageDir ++ rel).length := by
    rw [List.length_dropLast]
    have := List.length_pos.mpr hp
    omega
  refine ⟨⟨(u.storageDir ++ rel, d1) :: eraseKey fs.files (u.storageDir ++ rel),
      ((u.storageDir ++ rel).dropLast.inits.filter fun q => !fs.isDir q) ++ fs.dirs⟩,
    ⟨(u.storageDir ++ rel, d2) :: eraseKey fs.files (u.storageDir ++ rel),
      ((u.storageDir ++ rel).dropLast.inits.filter fun q => !fs.isDir q) ++ fs.dirs⟩,
    uploadData_eq u d1 rel fs hrel h1 h2, ?_, ?_, ?_⟩
  · -- second upload, on the state the first one left
    have h1b := any_isFile_upload_state u rel fs d1
      (((u.storageDir ++ rel).dropLast.inits.filter fun q => !fs.isDir q)
        ++ fs.dirs) hrel h1
    have h2b : Fs.isDir
        ⟨(u.storageDir ++ rel, d1)
            :: eraseKey fs.files (u.storageDir ++ rel),
          ((u.storageDir ++ rel).dropLast.inits.filter fun q => !fs.isDir q)
            ++ fs.dirs⟩ (u.storageDir ++ rel) = false := by
      show hasPath _ _ = false
      rw [hasPath_append, hasPath_initsFilter_long _ _ _ hlen]
      exact h2
    rw [uploadData_eq u d2 rel _ hrel h1b h2b]
    rw [show eraseKey ((u.storageDir ++ rel, d1)
          :: eraseKey fs.files (u.storageDir ++ rel)) (u.storageDir ++ rel)
        = eraseKey fs.files (u.storageDir ++ rel) from
      eraseKey_cons_erase _ _ _]
    rw [initsFilter_after_mkdir_nil fs (u.storageDir ++ rel).dropLast]
    rfl
  · -- download after the second upload reads d2
    show findData _ _ = some d2
    simp [findData]
  · -- re-uploading d2 leaves the state fixed
    have h1c := any_isFile_upload_state u rel fs d2
      (((u.storageDir ++ rel).dropLast.inits.filter fun q => !fs.isDir q)
        ++ fs.dirs) hrel h1
    have h2c : Fs.isDir
        ⟨(u.storageDir ++ rel, d2)
            :: eraseKey fs.files (u.storageDir ++ rel),
          ((u.storageDir ++ rel).dropLast.inits.filter fun q => !fs.isDir q)
            ++ fs.dirs⟩ (u.storageDir ++ rel) = false := by
      show hasPath _ _ = false
      rw [hasPath_append, hasPath_initsFilter_long _ _ _ hlen]
      exact h2
    rw [uploadData_eq u d2 rel _ hrel h1c h2c]
    rw [show eraseKey ((u.storageDir ++ rel, d2)
          :: eraseKey fs.files (u.storageDir ++ rel)) (u.storageDir ++ rel)
        = eraseKey fs.files (u.storageDir ++ rel) from
      eraseKey_cons_erase _ _ _]
    rw [initsFilter_after_mkdir_nil fs (u.storageDir ++ rel).dropLast]
    rfl

/-- C10 witness: the last-write-wins round trip evaluated with root `/r`,
path `a/b`, first content `[1, 2, 3]`, second content `[9]`. -/
theorem c10_upload_last_write_wins_witness :
    ∃ fs2 fs3,
      uploadData ⟨["r"]⟩ [1, 2, 3] ["a", "b"] ⟨[], [[], ["r"]]⟩
          = some (["r"] ++ ["a", "b"], 3, fs2)
      ∧ uploadData ⟨["r"]⟩ [9] ["a", "b"] fs2
          = some (["r"] ++ ["a", "b"], 1, fs3)
      ∧ downloadData ⟨["r"]⟩ ["a", "b"] fs3 = some [9]
      ∧ uploadData ⟨["r"]⟩ [9] ["a", "b"] fs3
          = some (["r"] ++ ["a", "b"], 1, fs3) :=
  c10_upload_last_write_wins ⟨["r"]⟩ ["a", "b"] ⟨[], [[], ["r"]]⟩ [1, 2, 3] [9]
    (by decide) (by decide) (by decide)

/-- C7: `DeleteObjects` deletes the given paths sequentially in list order;
at the first path whose deletion fails it returns that path's error
immediately — the remaining paths are never attempted (the result does not
depend on them) — and the deletions performed before the failure persist:
the final state is exactly the state after deleting the prefix, as mutated
by the failing call, with no rollback. -/
theorem c7_delete_objects_short_circuit (u : LocalUploader) (fs : Fs)
    (pre : List FPath) (p : FPath) (post : List FPath)
    (h1 : allDeletesOk u fs pre = true)
    (h2 : (deleteObject u (applyDeletes u fs pre) p).2 = false) :
    deleteObjects u fs (pre ++ p :: post)
      = ((deleteObject u (applyDeletes u fs pre) p).1, some pre.length) := by
  induction pre generalizing fs with
  | nil =>
      simp only [applyDeletes] at h2 ⊢
      simp only [List.nil_append, deleteObjects, List.length_nil]
      cases hd : deleteObject u fs p with
      | mk fs1 ok =>
          rw [hd] at h2
          cases ok
          · rfl
          · simp at h2
  | cons r rs ih =>
      simp only [allDeletesOk, Bool.and_eq_true] at h1
      simp only [applyDeletes] at h2 ⊢
      simp only [List.cons_append, deleteObjects, List.length_cons]
      cases hd : deleteObject u fs r with
      | mk fs1 ok =>
          rw [hd] at h1 h2
          dsimp only at h1 h2 ⊢
          cases ok
          · simp at h1
          · show (match deleteObjects u fs1 (rs ++ p :: post) with
                  | (fs2, none) => (fs2, none)
                  | (fs2, some i) => (fs2, some (i + 1)))
                = ((deleteObject u (applyDeletes u fs1 rs) p).1,
                    some (rs.length + 1))
            rw [ih fs1 h1.2 h2]

/-- C7 witness: deleting `a` (succeeds), then `m` (missing: fails), then `b`
— the call stops at index 1, `a` stays deleted, `b` is never attempted. -/
theorem c7_delete_objects_short_circuit_witness :
    deleteObjects ⟨["r"]⟩ ⟨[(["r", "a"], [1]), (["r", "b"], [2])], [[], ["r"]]⟩
        ([["a"]] ++ ["m"] :: [["b"]])
      = ((deleteObject ⟨["r"]⟩
            (applyDeletes ⟨["r"]⟩
              ⟨[(["r", "a"], [1]), (["r", "b"], [2])], [[], ["r"]]⟩ [["a"]])
            ["m"]).1,
         some [["a"]].length) :=
  c7_delete_objects_short_circuit ⟨["r"]⟩
    ⟨[(["r", "a"], [1]), (["r", "b"], [2])], [[], ["r"]]⟩
    [["a"]] ["m"] [["b"]] (by decide) (by decide)

/-- C4: the local backend's `ListObjects` has the dual prefix semantics.
For a prefix splitting into a readable directory `pre` and a file-name
component `namePfx`, and any entry name starting with `namePfx`: when
`pre/name` is a regular file, the result contains it (prefix-of-filename);
and when `pre/name` is a directory, the result contains every file
recursively under it (prefix-as-directory). -/
theorem c4_list_objects_dual_semantics (u : LocalUploader) (pre : FPath)
    (namePfx : String) (fs : Fs) (name : String)
    (hsep : fs.Sep = true)
    (hdir : fs.isDir (u.storageDir ++ pre) = true)
    (hpref : strHasPrefix namePfx name = true) :
    ∃ l, listObjects u pre namePfx fs = some l
      ∧ (fs.isFile (u.storageDir ++ pre ++ [name]) = true
          → u.storageDir ++ pre ++ [name] ∈ l)
      ∧ (∀ q, fs.isDir (u.storageDir ++ pre ++ [name]) = true
          → fs.isFile q = true
          → (u.storageDir ++ pre ++ [name]).isPrefixOf q = true
          → q ∈ l) := by
  refine ⟨_, listObjects_eq u pre namePfx fs hdir, ?_, ?_⟩
  · intro hf
    rw [List.mem_flatMap]
    refine ⟨name, childNames_of_file fs (u.storageDir ++ pre) name hf, ?_⟩
    rw [if_pos hpref, if_neg ?_]
    · exact List.mem_singleton.mpr rfl
    · rw [sep_file_not_dir fs _ hsep hf]
      simp
  · intro q hd hq hpfx
    rw [List.mem_flatMap]
    refine ⟨name, childNames_of_dir fs (u.storageDir ++ pre) name hd, ?_⟩
    rw [if_pos hpref, if_pos hd]
    exact List.mem_filter.mpr ⟨isFile_mem_fileKeys fs q hq, hpfx⟩

/-- C4 witness: root `/r` holding the file `foo.txt` and the directory `foo`
containing `foo/x`; `ListObjects("foo")` must contain `/r/foo.txt` and
`/r/foo/x`. -/
theorem c4_list_objects_dual_semantics_witness :
    (∃ l, listObjects ⟨["r"]⟩ [] "foo"
          ⟨[(["r", "foo.txt"], [1]), (["r", "foo", "x"], [2])],
            [[], ["r"], ["r", "foo"]]⟩ = some l
      ∧ (Fs.isFile ⟨[(["r", "foo.txt"], [1]), (["r", "foo", "x"], [2])],
            [[], ["r"], ["r", "foo"]]⟩ (["r"] ++ [] ++ ["foo.txt"]) = true
          → ["r"] ++ [] ++ ["foo.txt"] ∈ l)
      ∧ (∀ q, Fs.isDir ⟨[(["r", "foo.txt"], [1]), (["r", "foo", "x"], [2])],
            [[], ["r"], ["r", "foo"]]⟩ (["r"] ++ [] ++ ["foo.txt"]) = true
          → Fs.isFile ⟨[(["r", "foo.txt"], [1]), (["r", "foo", "x"], [2])],
              [[], ["r"], ["r", "foo"]]⟩ q = true
          → (["r"] ++ [] ++ ["foo.txt"]).isPrefixOf q = true
          → q ∈ l)) :=
  c4_list_objects_dual_semantics ⟨["r"]⟩ [] "foo"
    ⟨[(["r", "foo.txt"], [1]), (["r", "foo", "x"], [2])],
      [[], ["r"], ["r", "foo"]]⟩ "foo.txt"
    (by decide) (by decide) (by decide)

/-- C3: the local backend's `DeleteObject(p)` removes the target file (and
only it: the surviving file entries are exactly the others), then walks up
the directory chain: there is a depth `k` such that every chain directory
deeper than `k` has been removed, every directory off the chain — in
particular the storage root itself — is untouched, and the walk stopped at
the root (`k = 0`) or at a first non-empty ancestor (the directory at depth
`k` still has entries). -/
theorem c3_delete_object_cleanup (u : LocalUploader) (fs : Fs) (rel : FPath)
    (fs' : Fs)
    (hsep : fs.Sep = true)
    (hrel : rel ≠ [])
    (hfile : fs.isFile (u.storageDir ++ rel) = true)
    (h : deleteObject u fs rel = (fs', true)) :
    fs'.files = eraseKey fs.files (u.storageDir ++ rel)
    ∧ fs'.isFile (u.storageDir ++ rel) = false
    ∧ fs'.isDir u.storageDir = fs.isDir u.storageDir
    ∧ ∃ k, k < rel.length
        ∧ (∀ j, k < j → j < rel.length
            → fs'.isDir (u.storageDir ++ rel.take j) = false)
        ∧ (∀ q, (∀ j, k < j → j < rel.length → q ≠ u.storageDir ++ rel.take j)
            → fs'.isDir q = fs.isDir q)
        ∧ (k = 0 ∨ fs'.childNames (u.storageDir ++ rel.take k) ≠ []) := by
  cases hn : rel.length with
  | zero => exact absurd (List.length_eq_zero.mp hn) hrel
  | succ n =>
      rw [deleteObject, deleteObjectLoop, hn] at h
      have hrm : fs.remove (u.storageDir ++ rel)
          = some ⟨eraseKey fs.files (u.storageDir ++ rel), fs.dirs⟩ := by
        rw [Fs.remove, hfile]
        simp
      rw [deleteObjectLoopN] at h
      simp only [hrm] at h
      cases hrd : Fs.readDir ⟨eraseKey fs.files (u.storageDir ++ rel), fs.dirs⟩
          (u.storageDir ++ rel.dropLast) with
      | none =>
          simp only [hrd] at h
          exact absurd (congrArg Prod.snd h) (by simp)
      | some entries =>
          simp only [hrd] at h
          obtain ⟨hdir1, hent⟩ := readDir_some _ _ _ hrd
          by_cases hstop : rel.dropLast = [] ∨ entries ≠ []
          · rw [if_pos hstop] at h
            cases h
            refine ⟨rfl, ?_, rfl, n, by omega, ?_, ?_, ?_⟩
            · show (findData (eraseKey fs.files (u.storageDir ++ rel))
                  (u.storageDir ++ rel)).isSome = false
              rw [findData_eraseKey_self]
              rfl
            · intro j hj1 hj2
              exact absurd hj1 (by omega)
            · intro q _
              rfl
            · rcases hstop with hstop | hstop
              · left
                have hlen := congrArg List.length hstop
                rw [List.length_dropLast, hn] at hlen
                simpa using hlen
              · right
                have htk : rel.take n = rel.dropLast := by
                  rw [List.dropLast_eq_take, hn, Nat.add_sub_cancel]
                rw [htk, ← hent]
                exact hstop
          · rw [if_neg hstop] at h
            push_neg at hstop
            obtain ⟨hrel1, hent0⟩ := hstop
            have hsep1 : Fs.Sep
                ⟨eraseKey fs.files (u.storageDir ++ rel), fs.dirs⟩ = true :=
              sep_eraseKey fs _ hsep
            have hlen1 : rel.dropLast.length = n := by
              rw [List.length_dropLast, hn]
              omega
            obtain ⟨hfiles', _, k, hk, hb, hc, hd⟩ :=
              deleteLoop_dir_phase n u.storageDir
                ⟨eraseKey fs.files (u.storageDir ++ rel), fs.dirs⟩
                rel.dropLast fs' hlen1 hrel1 hsep1 hdir1 h
            have hkn : k < n := by rwa [hlen1] at hk
            refine ⟨hfiles', ?_, ?_, k, by omega, ?_, ?_, ?_⟩
            · show (findData fs'.files (u.storageDir ++ rel)).isSome = false
              rw [hfiles', findData_eraseKey_self]
              rfl
            · have hroot : ∀ j, k < j → j ≤ rel.dropLast.length
                  → u.storageDir ≠ u.storageDir ++ rel.dropLast.take j := by
                intro j hj1 _ hceq
                exact take_ne_nil_of_ne_nil rel.dropLast j hrel1 (by omega)
                  (List.append_right_eq_self.mp hceq.symm)
              rw [hc u.storageDir hroot]
              rfl
            · intro j hj1 hj2
              have hjle : j ≤ rel.dropLast.length := by
                rw [hlen1]
                omega
              rw [← take_dropLast_eq rel j (by rw [hn]; omega)]
              exact hb j hj1 hjle
            · intro q hq
              have hq' : ∀ j, k < j → j ≤ rel.dropLast.length
                  → q ≠ u.storageDir ++ rel.dropLast.take j := by
                intro j hj1 hj2
                rw [take_dropLast_eq rel j (by rw [← List.length_dropLast]; omega)]
                exact hq j hj1 (by rw [hlen1] at hj2; omega)
              rw [hc q hq']
              rfl
            · rcases hd with hd | hd
              · exact Or.inl hd
              · right
                rwa [take_dropLast_eq rel k (by rw [hn]; omega)] at hd

/-- C3 witness: root `/r`, object `a/b/c`; the delete removes the file and
the now-empty directories `/r/a/b` and `/r/a`, stopping at the root, which
survives. -/
theorem c3_delete_object_cleanup_witness :
    deleteObject ⟨["r"]⟩
        ⟨[(["r", "a", "b", "c"], [1])], [[], ["r"], ["r", "a"], ["r", "a", "b"]]⟩
        ["a", "b", "c"]
      = (⟨[], [[], ["r"]]⟩, true)
    ∧ (Fs.mk [] [[], ["r"]]).files
        = eraseKey [(["r", "a", "b", "c"], [1])] (["r"] ++ ["a", "b", "c"])
    ∧ (Fs.mk [] [[], ["r"]]).isFile (["r"] ++ ["a", "b", "c"]) = false
    ∧ (Fs.mk [] [[], ["r"]]).isDir ["r"]
        = Fs.isDir ⟨[(["r", "a", "b", "c"], [1])],
            [[], ["r"], ["r", "a"], ["r", "a", "b"]]⟩ ["r"]
    ∧ ∃ k, k < (["a", "b", "c"] : FPath).length
        ∧ (∀ j, k < j → j < (["a", "b", "c"] : FPath).length
            → (Fs.mk [] [[], ["r"]]).isDir
                (["r"] ++ (["a", "b", "c"] : FPath).take j) = false)
        ∧ (∀ q, (∀ j, k < j → j < (["a", "b", "c"] : FPath).length
              → q ≠ ["r"] ++ (["a", "b", "c"] : FPath).take j)
            → (Fs.mk [] [[], ["r"]]).isDir q
                = Fs.isDir ⟨[(["r", "a", "b", "c"], [1])],
                    [[], ["r"], ["r", "a"], ["r", "a", "b"]]⟩ q)
        ∧ (k = 0 ∨ (Fs.mk [] [[], ["r"]]).childNames
              (["r"] ++ (["a", "b", "c"] : FPath).take k) ≠ []) :=
  ⟨by decide,
    c3_delete_object_cleanup ⟨["r"]⟩
      ⟨[(["r", "a", "b", "c"], [1])], [[], ["r"], ["r", "a"], ["r", "a", "b"]]⟩
      ["a", "b", "c"] ⟨[], [[], ["r"]]⟩
      (by decide) (by decide) (by decide) (by decide)⟩

end Storage
